import Mathlib

/-!
Verification of the Merkle tree implementation in
src/merkle_tree/src/merkle_tree.rs against its natural-language
specification.

Shallow embedding conventions:
- A digest ([u8; 32] in the source) is modelled as a list of natural
  numbers (its bytes); `concat` of two digests is list append.
- The keccak256 hash primitive is an external collaborator of the
  repository (the spec treats it as an injected abstract function
  H : bytes -> digest), so every definition is parametrised by
  H : List Nat -> Digest.  A concrete injective instance testH is used
  to evaluate the model on explicit inputs.
- Fallible code is modelled with Option/Except: Rust panics (out of
  bounds indexing, unwrap on None) and the divergence of
  calculate_root on an empty slice become none.
- The two recursions of the source whose measure is not structural
  (the while loop of resize_leaves and the level-halving recursions of
  calculate_root / generate_proof) are written with an explicit fuel
  argument; the public wrappers supply fuel equal to the list length,
  which is proved sufficient, and keep every definition
  kernel-computable.
-/

namespace Merkle

abbrev Digest := List Nat

/-- CreationError from the source: the single error kind, returned by
build_from on an empty input array. -/
inductive CreationError where
  | Empty
deriving DecidableEq

/-- The MerkleTree struct: it owns only the ordered leaf digests. -/
structure MerkleTree where
  leaves : List Digest
deriving DecidableEq

/-- MerkleTree::calculate_hash with the hash primitive H abstracted. -/
def calculate_hash (H : List Nat → Digest) (input : List Nat) : Digest :=
  H input

/-- MerkleTree::get_leaves: hash every item of the input array. -/
def get_leaves (H : List Nat → Digest) (array : List (List Nat)) : List Digest :=
  array.map (fun elem => calculate_hash H elem)

/-- MerkleTree::build_from. -/
def build_from (H : List Nat → Digest) (array : List (List Nat)) :
    Except CreationError MerkleTree :=
  if array.isEmpty then Except.error CreationError.Empty
  else Except.ok { leaves := get_leaves H array }

/-- The while loop of MerkleTree::resize_leaves, with fuel counting the
remaining permitted iterations.  Each iteration appends a copy of the
current last element while the length is not a power of two (tested by
the bit trick len &&& (len - 1) != 0 as in the source). -/
def resize_leavesFuel : Nat → List Digest → List Digest
  | 0, l => l
  | fuel + 1, l =>
    if l.length &&& (l.length - 1) ≠ 0 then
      resize_leavesFuel fuel (l ++ [l.getLastD []])
    else l

/-- MerkleTree::resize_leaves.  Fuel equal to the current length is
sufficient: the next power of two is below twice the length
(resize_leavesFuel_spec below). -/
def resize_leaves (leaves : List Digest) : List Digest :=
  resize_leavesFuel leaves.length leaves

/-- The parents-array loop shared by MerkleTree::calculate_root and
MerkleTree::generate_proof: chunks(2) followed by hashing chunk[0]
concatenated with chunk[1].  On an odd length the source indexes
chunk[1] of a singleton chunk and panics, modelled by none. -/
def buildParents (H : List Nat → Digest) : List Digest → Option (List Digest)
  | [] => some []
  | [_] => none
  | a :: b :: rest =>
    (buildParents H rest).map (fun p => calculate_hash H (a ++ b) :: p)

/-- The recursion of MerkleTree::calculate_root with explicit fuel.
A singleton returns its element; the source recurses on the parents
array (half the length) otherwise.  On the empty slice the source
recurses forever, modelled by none. -/
def calculate_rootFuel (H : List Nat → Digest) : Nat → List Digest → Option Digest
  | _, [] => none
  | _, [d] => some d
  | 0, _ :: _ :: _ => none
  | fuel + 1, l =>
    match buildParents H l with
    | none => none
    | some parents_array => calculate_rootFuel H fuel parents_array

/-- MerkleTree::calculate_root; fuel equal to the length is sufficient
since each level halves the length. -/
def calculate_root (H : List Nat → Digest) (array : List Digest) : Option Digest :=
  calculate_rootFuel H array.length array

/-- The recursion of MerkleTree::generate_proof with explicit fuel:
push the sibling digest, build the parents array, recurse at index/2.
Out-of-bounds sibling indexing and the odd-length chunk panic are
modelled by none. -/
def generate_proofFuel (H : List Nat → Digest) :
    Nat → Nat → List Digest → List Digest → Option (List Digest)
  | _, _, [_], proof => some proof
  | 0, _, _, _ => none
  | fuel + 1, leaf_index, leaves, proof =>
    let sibling_index := if leaf_index % 2 = 0 then leaf_index + 1 else leaf_index - 1
    match leaves[sibling_index]? with
    | none => none
    | some sibling =>
      match buildParents H leaves with
      | none => none
      | some parents_array =>
        generate_proofFuel H fuel (leaf_index / 2) parents_array (proof ++ [sibling])

/-- MerkleTree::generate_proof. -/
def generate_proof (H : List Nat → Digest) (leaf_index : Nat) (leaves : List Digest)
    (proof : List Digest) : Option (List Digest) :=
  generate_proofFuel H leaves.length leaf_index leaves proof

/-- MerkleTree::verify: replay the proof, hashing value and sibling in
the order dictated by the parity of the running index. -/
def verify (H : List Nat → Digest) :
    List Digest → Digest → Digest → Nat → Bool
  | [], root, leaf_hash, _ => leaf_hash == root
  | hash :: rest, root, leaf_hash, leaf_index =>
    if leaf_index % 2 = 0 then
      verify H rest root (calculate_hash H (leaf_hash ++ hash)) (leaf_index / 2)
    else
      verify H rest root (calculate_hash H (hash ++ leaf_hash)) (leaf_index / 2)

/-- MerkleTree::get_root. -/
def MerkleTree.get_root (H : List Nat → Digest) (self : MerkleTree) : Option Digest :=
  calculate_root H (resize_leaves self.leaves)

/-- MerkleTree::count_leaves. -/
def MerkleTree.count_leaves (self : MerkleTree) : Nat :=
  self.leaves.length

/-- MerkleTree::add_leaves: hash the new items and extend the store.
The &mut self receiver is modelled by returning the updated tree. -/
def MerkleTree.add_leaves (H : List Nat → Digest) (self : MerkleTree)
    (new_leaves : List (List Nat)) : MerkleTree :=
  { leaves := self.leaves ++ get_leaves H new_leaves }

/-- MerkleTree::contains_leaf: linear first-match search over the
unpadded store, then a proof against the padded sequence.  The &mut
self receiver is modelled by also returning the (unchanged) tree; the
inner Option records a potential panic of generate_proof. -/
def MerkleTree.contains_leaf (H : List Nat → Digest) (self : MerkleTree)
    (leaf_hash : Digest) : Option (Option (List Digest) × Nat) × MerkleTree :=
  let result : Option (Option (List Digest) × Nat) :=
    match self.leaves.findIdx? (fun x => x == leaf_hash) with
    | some index => some (generate_proof H index (resize_leaves self.leaves) [], index)
    | none => none
  (result, self)

/-- The digest computed by replaying a proof in verify, before the
final comparison with the root. -/
def foldProof (H : List Nat → Digest) : List Digest → Digest → Nat → Digest
  | [], leaf_hash, _ => leaf_hash
  | hash :: rest, leaf_hash, leaf_index =>
    foldProof H rest
      (if leaf_index % 2 = 0 then calculate_hash H (leaf_hash ++ hash)
       else calculate_hash H (hash ++ leaf_hash))
      (leaf_index / 2)

/-- A tree after a sequence of add_leaves calls. -/
def applyAdds (H : List Nat → Digest) (t : MerkleTree)
    (adds : List (List (List Nat))) : MerkleTree :=
  adds.foldl (fun acc items => MerkleTree.add_leaves H acc items) t

/-- A concrete injective stand-in for the external hash primitive,
used to evaluate the model on explicit inputs. -/
def testH (input : List Nat) : Digest := 0 :: input

theorem testH_injective : Function.Injective testH := by
  intro a b h
  simpa [testH] using h

/-! ### Arithmetic of the power-of-two bit test -/

/-- The bit trick of resize_leaves: n AND (n-1) vanishes exactly on 0
and the powers of two. -/
theorem land_pred_eq_zero_iff (n : Nat) :
    n &&& (n - 1) = 0 ↔ n = 0 ∨ ∃ k, n = 2 ^ k := by
  constructor
  · intro h
    rcases Nat.eq_zero_or_pos n with h0 | hpos
    · exact Or.inl h0
    right
    refine ⟨Nat.log 2 n, ?_⟩
    by_contra hne
    have h1 : 2 ^ Nat.log 2 n ≤ n := Nat.pow_log_le_self 2 (by omega)
    have h2 : n < 2 ^ (Nat.log 2 n + 1) := Nat.lt_pow_succ_log_self (by norm_num) n
    have h2' : n < 2 * 2 ^ Nat.log 2 n := by
      calc n < 2 ^ (Nat.log 2 n + 1) := h2
      _ = 2 * 2 ^ Nat.log 2 n := by rw [Nat.pow_succ]; ring
    have hgt : 2 ^ Nat.log 2 n < n := lt_of_le_of_ne h1 (fun he => hne he.symm)
    have hd1 : n / 2 ^ Nat.log 2 n = 1 := by
      apply Nat.div_eq_of_lt_le (by simpa using h1)
      simpa [Nat.two_mul] using h2'
    have hd2 : (n - 1) / 2 ^ Nat.log 2 n = 1 := by
      apply Nat.div_eq_of_lt_le
      · simpa using Nat.le_sub_one_of_lt hgt
      · have : n - 1 < 2 * 2 ^ Nat.log 2 n := lt_of_le_of_lt (Nat.sub_le n 1) h2'
        simpa [Nat.two_mul] using this
    have hb1 : n.testBit (Nat.log 2 n) = true := by
      rw [Nat.testBit_to_div_mod, hd1]
      decide
    have hb2 : (n - 1).testBit (Nat.log 2 n) = true := by
      rw [Nat.testBit_to_div_mod, hd2]
      decide
    have : (n &&& (n - 1)).testBit (Nat.log 2 n) = true := by
      rw [Nat.testBit_and, hb1, hb2]
      decide
    rw [h, Nat.zero_testBit] at this
    exact Bool.false_ne_true this
  · rintro (rfl | ⟨k, rfl⟩)
    · rfl
    apply Nat.eq_of_testBit_eq
    intro i
    rw [Nat.testBit_and, Nat.zero_testBit, Nat.testBit_two_pow_sub_one]
    by_cases hik : k = i
    · subst hik
      simp
    · simp [Nat.testBit_two_pow, hik]

theorem clog_two_pow (k : Nat) : Nat.clog 2 (2 ^ k) = k :=
  Nat.clog_pow 2 k (by norm_num)

/-- A length that is neither zero nor a power of two lies strictly
below the next power of two. -/
theorem lt_pow_clog_of_not_pow {n : Nat} (h2 : ¬ ∃ k, n = 2 ^ k) :
    n < 2 ^ Nat.clog 2 n :=
  lt_of_le_of_ne (Nat.le_pow_clog (by norm_num) n) (fun he => h2 ⟨_, he⟩)

/-- The next power of two is below twice the length, so length-many
loop iterations always suffice for resize_leaves. -/
theorem pow_clog_le_two_mul {n : Nat} (h : n ≠ 0) :
    2 ^ Nat.clog 2 n ≤ 2 * n := by
  have hc : Nat.clog 2 n ≤ Nat.log 2 n + 1 :=
    (Nat.le_pow_iff_clog_le (by norm_num)).mp
      (le_of_lt (Nat.lt_pow_succ_log_self (by norm_num) n))
  calc 2 ^ Nat.clog 2 n ≤ 2 ^ (Nat.log 2 n + 1) := Nat.pow_le_pow_right (by norm_num) hc
    _ = 2 * 2 ^ Nat.log 2 n := by rw [Nat.pow_succ]; ring
    _ ≤ 2 * n := Nat.mul_le_mul_left 2 (Nat.pow_log_le_self 2 h)

/-! ### Characterisation of resize_leaves -/

/-- With enough fuel, the resize loop appends exactly the copies of
the (unchanging) last element needed to reach the next power of two. -/
theorem resize_leavesFuel_spec :
    ∀ (fuel : Nat) (l : List Digest), l ≠ [] →
      2 ^ Nat.clog 2 l.length - l.length ≤ fuel →
      resize_leavesFuel fuel l =
        l ++ List.replicate (2 ^ Nat.clog 2 l.length - l.length) (l.getLastD []) := by
  intro fuel
  induction fuel with
  | zero =>
    intro l hne hfuel
    have h0 : 2 ^ Nat.clog 2 l.length - l.length = 0 := Nat.le_zero.mp hfuel
    simp [resize_leavesFuel, h0]
  | succ fuel ih =>
    intro l hne hfuel
    by_cases hc : l.length &&& (l.length - 1) ≠ 0
    · have hlen0 : l.length ≠ 0 := by simpa using hne
      have hnp : ¬ ∃ k, l.length = 2 ^ k := fun hk =>
        hc ((land_pred_eq_zero_iff l.length).mpr (Or.inr hk))
      have hlt : l.length < 2 ^ Nat.clog 2 l.length := lt_pow_clog_of_not_pow hnp
      have hstep : resize_leavesFuel (fuel + 1) l =
          resize_leavesFuel fuel (l ++ [l.getLastD []]) := by
        simp only [resize_leavesFuel, if_pos hc]
      have hclog : Nat.clog 2 (l.length + 1) = Nat.clog 2 l.length := by
        apply le_antisymm
        · exact (Nat.le_pow_iff_clog_le (by norm_num)).mp hlt
        · exact Nat.clog_mono_right 2 (Nat.le_succ _)
      have hlast : (l ++ [l.getLastD []]).getLastD [] = l.getLastD [] :=
        List.getLastD_concat _ _ _
      have hlen : (l ++ [l.getLastD []]).length = l.length + 1 := by simp
      have ihl := ih (l ++ [l.getLastD []]) (by simp)
        (by rw [hlen, hclog]; omega)
      rw [hstep, ihl, hlast, hlen, hclog]
      rw [List.append_assoc, List.singleton_append]
      have hrep : 2 ^ Nat.clog 2 l.length - l.length =
          (2 ^ Nat.clog 2 l.length - (l.length + 1)) + 1 := by omega
      rw [hrep, List.replicate_succ]
    · have hz : l.length &&& (l.length - 1) = 0 := by
        by_contra hx
        exact hc hx
      rcases (land_pred_eq_zero_iff l.length).mp hz with h0 | ⟨k, hk⟩
      · exact absurd (List.length_eq_zero.mp h0) hne
      · have hrep : 2 ^ Nat.clog 2 l.length - l.length = 0 := by
          rw [hk, clog_two_pow]
          omega
        simp [resize_leavesFuel, hc, hrep]

/-- resize_leaves pads with copies of the original last element up to
the next power of two. -/
theorem resize_leaves_spec (l : List Digest) (h : l ≠ []) :
    resize_leaves l =
      l ++ List.replicate (2 ^ Nat.clog 2 l.length - l.length) (l.getLastD []) := by
  apply resize_leavesFuel_spec l.length l h
  have hlen0 : l.length ≠ 0 := by simpa using h
  have := pow_clog_le_two_mul hlen0
  omega

/-- The padded working sequence has the next power of two as length. -/
theorem resize_leaves_length (l : List Digest) (h : l ≠ []) :
    (resize_leaves l).length = 2 ^ Nat.clog 2 l.length := by
  rw [resize_leaves_spec l h]
  have hle : l.length ≤ 2 ^ Nat.clog 2 l.length := Nat.le_pow_clog (by norm_num) l.length
  simp
  omega

/-! ### Properties of the pairing pass -/

theorem buildParents_even (H : List Nat → Digest) :
    ∀ (l : List Digest), l.length % 2 = 0 →
      ∃ p, buildParents H l = some p ∧ p.length = l.length / 2
  | [], _ => ⟨[], rfl, rfl⟩
  | [_], h => by simp at h
  | a :: b :: rest, h => by
    obtain ⟨p, hp, hl⟩ := buildParents_even H rest (by simp at h; omega)
    refine ⟨calculate_hash H (a ++ b) :: p, ?_, ?_⟩
    · simp [buildParents, hp]
    · simp [hl]
      omega

theorem buildParents_getD (H : List Nat → Digest) :
    ∀ (l p : List Digest), buildParents H l = some p →
      ∀ j, 2 * j + 1 < l.length →
        p.getD j [] = calculate_hash H (l.getD (2 * j) [] ++ l.getD (2 * j + 1) [])
  | [], p, hp, j, hj => by simp at hj
  | [_], p, hp, j, hj => by simp [buildParents] at hp
  | a :: b :: rest, p, hp, j, hj => by
    simp only [buildParents, Option.map_eq_some'] at hp
    obtain ⟨q, hq, rfl⟩ := hp
    match j with
    | 0 => simp
    | j + 1 =>
      have hrec := buildParents_getD H rest q hq j (by simp at hj; omega)
      have h1 : 2 * (j + 1) = 2 * j + 1 + 1 := by omega
      have h2 : 2 * (j + 1) + 1 = 2 * j + 1 + 1 + 1 := by omega
      simp only [h1, h2, List.getD_cons_succ]
      exact hrec

theorem buildParents_length (H : List Nat → Digest) :
    ∀ (l p : List Digest), buildParents H l = some p → 2 * p.length = l.length
  | [], p, hp => by
    simp only [buildParents, Option.some.injEq] at hp
    subst hp
    rfl
  | [_], p, hp => by simp [buildParents] at hp
  | a :: b :: rest, p, hp => by
    simp only [buildParents, Option.map_eq_some'] at hp
    obtain ⟨q, hq, rfl⟩ := hp
    have := buildParents_length H rest q hq
    simp only [List.length_cons]
    omega

/-- The fuel argument of calculate_rootFuel is irrelevant once it
reaches the list length. -/
theorem calculate_rootFuel_irrel (H : List Nat → Digest) :
    ∀ (f₁ : Nat), ∀ (f₂ : Nat) (l : List Digest), l.length ≤ f₁ → l.length ≤ f₂ →
      calculate_rootFuel H f₁ l = calculate_rootFuel H f₂ l := by
  intro f₁
  induction f₁ with
  | zero =>
    intro f₂ l h1 h2
    have : l = [] := List.length_eq_zero.mp (Nat.le_zero.mp h1)
    subst this
    cases f₂ <;> rfl
  | succ f₁ ih =>
    intro f₂ l h1 h2
    rcases l with _ | ⟨a, rest⟩
    · cases f₂ <;> rfl
    rcases rest with _ | ⟨b, rest⟩
    · cases f₂ <;> rfl
    rcases f₂ with _ | f₂
    · exfalso
      simp at h2
    simp only [calculate_rootFuel]
    cases hp : buildParents H (a :: b :: rest) with
    | none => rfl
    | some parents =>
      have hlen := buildParents_length H _ parents hp
      simp only [List.length_cons] at h1 h2 hlen
      apply ih <;> omega

/-- verify is the comparison of the replayed digest with the root. -/
theorem verify_eq_foldProof (H : List Nat → Digest) :
    ∀ (proof : List Digest) (root leaf_hash : Digest) (leaf_index : Nat),
      verify H proof root leaf_hash leaf_index =
        (foldProof H proof leaf_hash leaf_index == root)
  | [], _, _, _ => rfl
  | hash :: rest, root, leaf, i => by
    by_cases h : i % 2 = 0 <;>
      simp [verify, foldProof, h, verify_eq_foldProof H rest]

/-- Joint correctness of proof generation and root computation on a
power-of-two level: the proof is produced with one sibling per level
and replays through foldProof to the computed root. -/
theorem merkle_main (H : List Nat → Digest) :
    ∀ (k f₁ f₂ : Nat), k ≤ f₁ → k ≤ f₂ →
      ∀ (l : List Digest), l.length = 2 ^ k →
        ∀ (i : Nat), i < 2 ^ k → ∀ (acc : List Digest),
          ∃ tail r,
            generate_proofFuel H f₁ i l acc = some (acc ++ tail)
            ∧ tail.length = k
            ∧ calculate_rootFuel H f₂ l = some r
            ∧ foldProof H tail (l.getD i []) i = r := by
  intro k
  induction k with
  | zero =>
    intro f₁ f₂ _ _ l hl i hi acc
    obtain ⟨d, rfl⟩ := List.length_eq_one.mp (by simpa using hl)
    have hi0 : i = 0 := by simpa using hi
    subst hi0
    refine ⟨[], d, ?_, rfl, ?_, rfl⟩
    · simp [generate_proofFuel]
    · cases f₂ <;> rfl
  | succ k ih =>
    intro f₁ f₂ hf₁ hf₂ l hl i hi acc
    rcases f₁ with _ | f₁
    · omega
    rcases f₂ with _ | f₂
    · omega
    have h2k : 0 < 2 ^ k := Nat.pos_pow_of_pos k (by norm_num)
    have hl2 : 2 ≤ l.length := by
      rw [hl, Nat.pow_succ]
      omega
    rcases l with _ | ⟨a, rest⟩
    · simp at hl2
    rcases rest with _ | ⟨b, rest⟩
    · simp at hl2
    have hlen : (a :: b :: rest).length = 2 ^ (k + 1) := hl
    have heven : (a :: b :: rest).length % 2 = 0 := by
      rw [hlen, Nat.pow_succ]
      omega
    obtain ⟨parents, hp, hplen⟩ := buildParents_even H (a :: b :: rest) heven
    have hplen' : parents.length = 2 ^ k := by
      rw [hplen, hlen, Nat.pow_succ]
      omega
    have hi' : i < 2 ^ (k + 1) := hi
    have hidiv : i / 2 < 2 ^ k := by
      rw [Nat.pow_succ] at hi'
      omega
    by_cases hpar : i % 2 = 0
    · -- even index: the sibling sits one slot to the right
      have hsib_lt : i + 1 < (a :: b :: rest).length := by
        rw [hlen, Nat.pow_succ]
        rw [Nat.pow_succ] at hi'
        omega
      have hsome : (a :: b :: rest)[i + 1]? =
          some ((a :: b :: rest).getD (i + 1) []) := by
        rw [List.getD_eq_getElem?_getD, List.getElem?_eq_getElem hsib_lt]
        rfl
      obtain ⟨tail, r, hg, htlen, hroot, hfold⟩ :=
        ih f₁ f₂ (by omega) (by omega) parents hplen' (i / 2) hidiv
          (acc ++ [(a :: b :: rest).getD (i + 1) []])
      refine ⟨(a :: b :: rest).getD (i + 1) [] :: tail, r, ?_, ?_, ?_, ?_⟩
      · simp only [generate_proofFuel, hpar, if_pos, hsome, hp]
        rw [hg, List.append_assoc, List.singleton_append]
      · simp [htlen]
      · simp only [calculate_rootFuel, hp]
        exact hroot
      · have hpair := buildParents_getD H (a :: b :: rest) parents hp (i / 2)
          (by omega)
        have e1 : 2 * (i / 2) = i := by omega
        have e2 : 2 * (i / 2) + 1 = i + 1 := by omega
        rw [e2, e1] at hpair
        simp only [foldProof, hpar, if_pos, calculate_hash] at hfold ⊢
        rw [show H ((a :: b :: rest).getD i [] ++ (a :: b :: rest).getD (i + 1) []) =
              parents.getD (i / 2) [] from by rw [hpair]; rfl]
        exact hfold
    · -- odd index: the sibling sits one slot to the left
      have hi1 : 1 ≤ i := by omega
      have hsib_lt : i - 1 < (a :: b :: rest).length := by
        rw [hlen]
        omega
      have hsome : (a :: b :: rest)[i - 1]? =
          some ((a :: b :: rest).getD (i - 1) []) := by
        rw [List.getD_eq_getElem?_getD, List.getElem?_eq_getElem hsib_lt]
        rfl
      obtain ⟨tail, r, hg, htlen, hroot, hfold⟩ :=
        ih f₁ f₂ (by omega) (by omega) parents hplen' (i / 2) hidiv
          (acc ++ [(a :: b :: rest).getD (i - 1) []])
      refine ⟨(a :: b :: rest).getD (i - 1) [] :: tail, r, ?_, ?_, ?_, ?_⟩
      · simp only [generate_proofFuel, hpar, if_neg, if_false, hsome, hp]
        rw [hg, List.append_assoc, List.singleton_append]
      · simp [htlen]
      · simp only [calculate_rootFuel, hp]
        exact hroot
      · have hpair := buildParents_getD H (a :: b :: rest) parents hp (i / 2)
          (by omega)
        have e1 : 2 * (i / 2) = i - 1 := by omega
        have e2 : 2 * (i / 2) + 1 = i := by omega
        rw [e2, e1] at hpair
        simp only [foldProof, hpar, if_neg, if_false, calculate_hash] at hfold ⊢
        rw [show H ((a :: b :: rest).getD (i - 1) [] ++ (a :: b :: rest).getD i []) =
              parents.getD (i / 2) [] from by rw [hpair]; rfl]
        exact hfold

/-! ### First-match search -/

theorem findIdx?_first {α : Type} (p : α → Bool) (default : α) :
    ∀ (l : List α) (k : Nat), k < l.length → p (l.getD k default) = true →
      (∀ j, j < k → p (l.getD j default) = false) → l.findIdx? p = some k
  | [], k, hk, _, _ => by simp at hk
  | a :: t, 0, _, hp, _ => by
    simp only [List.getD_cons_zero] at hp
    simp [List.findIdx?_cons, hp]
  | a :: t, k + 1, hk, hp, hfirst => by
    have ha : p a = false := by
      have := hfirst 0 (by omega)
      simpa using this
    have ht := findIdx?_first p default t k (by simpa using hk)
      (by simpa using hp)
      (fun j hj => by simpa using hfirst (j + 1) (by omega))
    simp [List.findIdx?_cons, ha, List.findIdx?_succ, ht]

theorem findIdx?_some_lt {α : Type} (p : α → Bool) :
    ∀ (l : List α) (k : Nat), l.findIdx? p = some k → k < l.length := by
  intro l k h
  have := List.findIdx?_eq_some_iff_findIdx_eq.mp h
  exact this.1

/-! ### Injectivity of the replay fold (under an injective hash) -/

theorem foldProof_inj {H : List Nat → Digest} (hinj : Function.Injective H) :
    ∀ (p : List Digest) (i : Nat) (x y : Digest),
      foldProof H p x i = foldProof H p y i → x = y
  | [], _, _, _, h => h
  | hash :: rest, i, x, y, h => by
    by_cases hpar : i % 2 = 0
    · simp only [foldProof, hpar, if_pos, calculate_hash] at h
      have := hinj (foldProof_inj hinj rest (i / 2) _ _ h)
      exact List.append_cancel_right this
    · simp only [foldProof, hpar, if_neg, if_false, calculate_hash] at h
      have := hinj (foldProof_inj hinj rest (i / 2) _ _ h)
      exact List.append_cancel_left this

theorem foldProof_set_ne {H : List Nat → Digest} (hinj : Function.Injective H) :
    ∀ (p : List Digest) (j : Nat) (s leaf : Digest) (i : Nat),
      j < p.length → s ≠ p.getD j [] →
      foldProof H (p.set j s) leaf i ≠ foldProof H p leaf i
  | [], j, s, leaf, i, hj, _ => by simp at hj
  | hash :: rest, 0, s, leaf, i, _, hs => by
    simp only [List.getD_cons_zero] at hs
    intro h
    simp only [List.set_cons_zero] at h
    by_cases hpar : i % 2 = 0
    · simp only [foldProof, hpar, if_pos, calculate_hash] at h
      have := hinj (foldProof_inj hinj rest (i / 2) _ _ h)
      exact hs (List.append_cancel_left this)
    · simp only [foldProof, hpar, if_neg, if_false, calculate_hash] at h
      have := hinj (foldProof_inj hinj rest (i / 2) _ _ h)
      exact hs (List.append_cancel_right this)
  | hash :: rest, j + 1, s, leaf, i, hj, hs => by
    intro h
    simp only [List.set_cons_succ] at h
    by_cases hpar : i % 2 = 0
    · simp only [foldProof, hpar, if_pos, calculate_hash] at h
      exact foldProof_set_ne hinj rest j s _ (i / 2)
        (by simpa using hj) (by simpa using hs) h
    · simp only [foldProof, hpar, if_neg, if_false, calculate_hash] at h
      exact foldProof_set_ne hinj rest j s _ (i / 2)
        (by simpa using hj) (by simpa using hs) h

/-! ### Trees reachable from build_from -/

theorem build_from_ok {H : List Nat → Digest} {a : List (List Nat)}
    {t : MerkleTree} (hb : build_from H a = Except.ok t) :
    a ≠ [] ∧ t.leaves = get_leaves H a := by
  by_cases ha : a = []
  · subst ha
    simp [build_from] at hb
  · refine ⟨ha, ?_⟩
    simp only [build_from, List.isEmpty_iff, if_neg ha] at hb
    cases hb
    rfl

theorem applyAdds_append (H : List Nat → Digest) :
    ∀ (adds : List (List (List Nat))) (t : MerkleTree),
      ∃ s, (applyAdds H t adds).leaves = t.leaves ++ s
  | [], t => ⟨[], by simp [applyAdds]⟩
  | b :: adds, t => by
    obtain ⟨s, hs⟩ := applyAdds_append H adds (MerkleTree.add_leaves H t b)
    exact ⟨get_leaves H b ++ s, by
      simp only [applyAdds, List.foldl_cons] at hs ⊢
      rw [hs, MerkleTree.add_leaves, List.append_assoc]⟩

theorem applyAdds_ne_nil {H : List Nat → Digest} {a : List (List Nat)}
    {t : MerkleTree} (hb : build_from H a = Except.ok t)
    (adds : List (List (List Nat))) : (applyAdds H t adds).leaves ≠ [] := by
  obtain ⟨ha, hleaves⟩ := build_from_ok hb
  obtain ⟨s, hs⟩ := applyAdds_append H adds t
  rw [hs, hleaves]
  simp [get_leaves, ha]

theorem length_le_resize (l : List Digest) (h : l ≠ []) :
    l.length ≤ (resize_leaves l).length := by
  rw [resize_leaves_length l h]
  exact Nat.le_pow_clog (by norm_num) l.length

/-- Packaging of merkle_main at the public wrappers: on the padded
sequence of a non-empty leaf store, generate_proof succeeds, yields one
sibling per level, and replays to the computed root. -/
theorem generate_verify (H : List Nat → Digest) (l : List Digest) (h : l ≠ [])
    (i : Nat) (hi : i < (resize_leaves l).length) :
    ∃ proof r,
      generate_proof H i (resize_leaves l) [] = some proof
      ∧ proof.length = Nat.clog 2 l.length
      ∧ calculate_root H (resize_leaves l) = some r
      ∧ foldProof H proof ((resize_leaves l).getD i []) i = r := by
  have hlen : (resize_leaves l).length = 2 ^ Nat.clog 2 l.length :=
    resize_leaves_length l h
  have hfuel : Nat.clog 2 l.length ≤ (resize_leaves l).length := by
    rw [hlen]
    exact le_of_lt (Nat.lt_two_pow _)
  obtain ⟨tail, r, hg, htlen, hroot, hfold⟩ :=
    merkle_main H (Nat.clog 2 l.length) (resize_leaves l).length
      (resize_leaves l).length hfuel hfuel (resize_leaves l) hlen i
      (by rw [← hlen]; exact hi) []
  refine ⟨tail, r, ?_, htlen, hroot, hfold⟩
  rw [generate_proof, hg]
  simp

/-- Claim C1: for every tree built by build_from (possibly extended by
add_leaves) and every index valid for the padded working sequence, the
generated proof verifies against the computed root and the padded leaf
digest at that index. -/
theorem claim_C1 (H : List Nat → Digest) (a : List (List Nat))
    (adds : List (List (List Nat))) (t0 t : MerkleTree)
    (hb : build_from H a = Except.ok t0) (ht : t = applyAdds H t0 adds)
    (i : Nat) (hi : i < (resize_leaves t.leaves).length) :
    ∃ proof r,
      generate_proof H i (resize_leaves t.leaves) [] = some proof
      ∧ MerkleTree.get_root H t = some r
      ∧ verify H proof r ((resize_leaves t.leaves).getD i []) i = true := by
  subst ht
  have hne := applyAdds_ne_nil hb adds
  obtain ⟨proof, r, hg, _, hroot, hfold⟩ :=
    generate_verify H (applyAdds H t0 adds).leaves hne i hi
  refine ⟨proof, r, hg, hroot, ?_⟩
  rw [verify_eq_foldProof, hfold]
  simp

theorem claim_C1_witness :
    ∃ proof r,
      generate_proof testH 0 (resize_leaves (MerkleTree.mk [[0, 5]]).leaves) [] = some proof
      ∧ MerkleTree.get_root testH (MerkleTree.mk [[0, 5]]) = some r
      ∧ verify testH proof r
          ((resize_leaves (MerkleTree.mk [[0, 5]]).leaves).getD 0 []) 0 = true :=
  claim_C1 testH [[5]] [] (MerkleTree.mk [[0, 5]]) (MerkleTree.mk [[0, 5]])
    rfl rfl 0 (by decide)

/-- Claim C2: get_root pads the leaf store by duplicating the current
last element up to the next power of two, then folds consecutive
disjoint pairs with H(left concatenated with right), halving each level
until a single digest remains. -/
theorem claim_C2 (H : List Nat → Digest) (l : List Digest) (h : l ≠ []) :
    MerkleTree.get_root H (MerkleTree.mk l) = calculate_root H (resize_leaves l)
    ∧ resize_leaves l =
        l ++ List.replicate (2 ^ Nat.clog 2 l.length - l.length) (l.getLastD [])
    ∧ (resize_leaves l).length = 2 ^ Nat.clog 2 l.length
    ∧ (∀ d : Digest, calculate_root H [d] = some d)
    ∧ (∀ a : List Digest, 2 ≤ a.length → a.length % 2 = 0 →
        ∃ p, buildParents H a = some p
          ∧ p.length = a.length / 2
          ∧ (∀ j, 2 * j + 1 < a.length →
              p.getD j [] =
                calculate_hash H (a.getD (2 * j) [] ++ a.getD (2 * j + 1) []))
          ∧ calculate_root H a = calculate_root H p) := by
  refine ⟨rfl, resize_leaves_spec l h, resize_leaves_length l h,
    fun d => rfl, ?_⟩
  intro a ha2 haeven
  obtain ⟨p, hp, hlen⟩ := buildParents_even H a haeven
  refine ⟨p, hp, hlen, buildParents_getD H a p hp, ?_⟩
  rcases a with _ | ⟨x, t⟩
  · simp at ha2
  rcases t with _ | ⟨y, t⟩
  · simp at ha2
  have hplen2 := buildParents_length H _ p hp
  simp only [List.length_cons] at hplen2
  simp only [calculate_root, List.length_cons, calculate_rootFuel, hp]
  apply calculate_rootFuel_irrel <;> omega

theorem claim_C2_witness :
    resize_leaves [[5]] =
      [[5]] ++ List.replicate (2 ^ Nat.clog 2 ([[5]] : List Digest).length -
        ([[5]] : List Digest).length) (([[5]] : List Digest).getLastD []) :=
  (claim_C2 testH [[5]] (by decide)).2.1

/-- Claim C3: build_from errors with Empty exactly on the empty input,
and otherwise returns the tree whose leaf store is the item hashes in
input order. -/
theorem claim_C3 (H : List Nat → Digest) (items : List (List Nat)) :
    (build_from H items = Except.error CreationError.Empty ↔ items = [])
    ∧ (items ≠ [] →
        build_from H items =
          Except.ok (MerkleTree.mk (items.map (fun x => calculate_hash H x)))) := by
  constructor
  · constructor
    · intro h
      by_contra hne
      simp [build_from, List.isEmpty_iff, hne] at h
    · rintro rfl
      rfl
  · intro hne
    simp [build_from, List.isEmpty_iff, hne, get_leaves]

theorem claim_C3_witness :
    build_from testH [[1], [2]] =
      Except.ok (MerkleTree.mk ([[1], [2]].map (fun x => calculate_hash testH x))) :=
  (claim_C3 testH [[1], [2]]).2 (by decide)

/-- Claim C4: add_leaves appends the hashes of the new items, grows
count_leaves by their number, and leaves the tree with the same root as
a fresh tree built from the concatenated items. -/
theorem claim_C4 (H : List Nat → Digest) (a b : List (List Nat)) (t : MerkleTree)
    (hb : build_from H a = Except.ok t) :
    (MerkleTree.add_leaves H t b).leaves = t.leaves ++ get_leaves H b
    ∧ MerkleTree.count_leaves (MerkleTree.add_leaves H t b) =
        MerkleTree.count_leaves t + b.length
    ∧ ∃ t2, build_from H (a ++ b) = Except.ok t2
        ∧ MerkleTree.get_root H (MerkleTree.add_leaves H t b) =
            MerkleTree.get_root H t2 := by
  obtain ⟨ha, hleaves⟩ := build_from_ok hb
  refine ⟨rfl, ?_, ?_⟩
  · simp [MerkleTree.count_leaves, MerkleTree.add_leaves, get_leaves]
  · refine ⟨MerkleTree.mk (get_leaves H (a ++ b)), ?_, ?_⟩
    · have hab : ¬(a ++ b) = [] := by simp [ha]
      simp [build_from, List.isEmpty_iff, hab]
    · have heq : (MerkleTree.add_leaves H t b).leaves = get_leaves H (a ++ b) := by
        show t.leaves ++ get_leaves H b = _
        rw [hleaves]
        simp [get_leaves]
      simp [MerkleTree.get_root, heq]

theorem claim_C4_witness :
    (MerkleTree.add_leaves testH (MerkleTree.mk [[0, 1]]) [[2]]).leaves =
      (MerkleTree.mk [[0, 1]]).leaves ++ get_leaves testH [[2]] :=
  (claim_C4 testH [[1]] [[2]] (MerkleTree.mk [[0, 1]]) rfl).1

/-- Claim C5: contains_leaf returns none when the digest is absent from
the unpadded store; otherwise it returns the first matching index
together with the proof generated against the padded sequence, whose
length is the ceiling of log2 of the padded length. -/
theorem claim_C5 (H : List Nat → Digest) (t : MerkleTree) (h : t.leaves ≠ [])
    (d : Digest) :
    ((∀ x ∈ t.leaves, x ≠ d) → (MerkleTree.contains_leaf H t d).1 = none)
    ∧ (∀ k, k < t.leaves.length → t.leaves.getD k [] = d →
        (∀ j, j < k → t.leaves.getD j [] ≠ d) →
        ∃ proof,
          (MerkleTree.contains_leaf H t d).1 = some (some proof, k)
          ∧ generate_proof H k (resize_leaves t.leaves) [] = some proof
          ∧ proof.length = Nat.clog 2 (resize_leaves t.leaves).length) := by
  constructor
  · intro habs
    have hfind : t.leaves.findIdx? (fun x => x == d) = none :=
      List.findIdx?_eq_none_iff.mpr
        (fun x hx => beq_eq_false_iff_ne.mpr (habs x hx))
    simp [MerkleTree.contains_leaf, hfind]
  · intro k hk hkd hfirst
    have hfind : t.leaves.findIdx? (fun x => x == d) = some k :=
      findIdx?_first _ [] t.leaves k hk
        (by simp only [hkd, beq_self_eq_true])
        (fun j hj => beq_eq_false_iff_ne.mpr (hfirst j hj))
    have hk' : k < (resize_leaves t.leaves).length :=
      lt_of_lt_of_le hk (length_le_resize t.leaves h)
    obtain ⟨proof, r, hg, hlen, _, _⟩ := generate_verify H t.leaves h k hk'
    refine ⟨proof, ?_, hg, ?_⟩
    · simp [MerkleTree.contains_leaf, hfind, hg]
    · rw [hlen, resize_leaves_length t.leaves h, clog_two_pow]

theorem claim_C5_witness :
    ∃ proof,
      (MerkleTree.contains_leaf testH (MerkleTree.mk [[0, 1]]) [0, 1]).1 =
        some (some proof, 0)
      ∧ generate_proof testH 0 (resize_leaves (MerkleTree.mk [[0, 1]]).leaves) [] =
          some proof
      ∧ proof.length =
          Nat.clog 2 (resize_leaves (MerkleTree.mk [[0, 1]]).leaves).length :=
  (claim_C5 testH (MerkleTree.mk [[0, 1]]) (by decide) [0, 1]).2 0 (by decide)
    (by decide) (fun j hj => absurd hj (Nat.not_lt_zero j))

/-- Claim C6 (amended): with an injective hash oracle, replacing the
leaf digest by a different digest, or any single proof entry by a
different digest, turns a successful verification into a failing one.
Replacing the index by a different value need not (see the
counterexample): verify only consumes the index parities, so congruent
indices replay identically, and duplicated siblings introduced by the
padding rule let a swapped concatenation produce the same digest. -/
theorem claim_C6 (H : List Nat → Digest) (hinj : Function.Injective H)
    (proof : List Digest) (root leaf : Digest) (i : Nat)
    (hpos : verify H proof root leaf i = true) :
    (∀ leaf2, leaf2 ≠ leaf → verify H proof root leaf2 i = false)
    ∧ (∀ j s, j < proof.length → s ≠ proof.getD j [] →
        verify H (proof.set j s) root leaf i = false) := by
  have hfold : foldProof H proof leaf i = root := by
    rw [verify_eq_foldProof] at hpos
    exact eq_of_beq hpos
  constructor
  · intro leaf2 hne
    rw [verify_eq_foldProof]
    apply beq_eq_false_iff_ne.mpr
    intro he
    exact hne (foldProof_inj hinj proof i leaf2 leaf (he.trans hfold.symm))
  · intro j s hj hs
    rw [verify_eq_foldProof]
    apply beq_eq_false_iff_ne.mpr
    intro he
    exact foldProof_set_ne hinj proof j s leaf i hj hs (he.trans hfold.symm)

theorem claim_C6_witness :
    verify testH [] [0, 9] [1] 0 = false :=
  (claim_C6 testH testH_injective [] [0, 9] [0, 9] 0 (by decide)).1 [1] (by decide)

/-- Counterexample to claim C6 as stated: a verification that succeeds
for the honestly generated proof of leaf index 2 also succeeds after
the index is changed to a different value.  With four leaves, index 6
replays the same parities as index 2; with three leaves, padding
duplicates the last leaf and the in-range index 3 also verifies. -/
theorem claim_C6_counterexample :
    ((6 : Nat) ≠ 2
      ∧ verify testH
          ((generate_proof testH 2
            (resize_leaves (get_leaves testH [[0], [1], [2], [3]])) []).getD [])
          ((MerkleTree.get_root testH
            (MerkleTree.mk (get_leaves testH [[0], [1], [2], [3]]))).getD [])
          ((resize_leaves (get_leaves testH [[0], [1], [2], [3]])).getD 2 []) 2 = true
      ∧ verify testH
          ((generate_proof testH 2
            (resize_leaves (get_leaves testH [[0], [1], [2], [3]])) []).getD [])
          ((MerkleTree.get_root testH
            (MerkleTree.mk (get_leaves testH [[0], [1], [2], [3]]))).getD [])
          ((resize_leaves (get_leaves testH [[0], [1], [2], [3]])).getD 2 []) 6 = true)
    ∧ ((3 : Nat) ≠ 2
      ∧ 3 < (resize_leaves (get_leaves testH [[0], [1], [2]])).length
      ∧ verify testH
          ((generate_proof testH 2
            (resize_leaves (get_leaves testH [[0], [1], [2]])) []).getD [])
          ((MerkleTree.get_root testH
            (MerkleTree.mk (get_leaves testH [[0], [1], [2]]))).getD [])
          ((resize_leaves (get_leaves testH [[0], [1], [2]])).getD 2 []) 2 = true
      ∧ verify testH
          ((generate_proof testH 2
            (resize_leaves (get_leaves testH [[0], [1], [2]])) []).getD [])
          ((MerkleTree.get_root testH
            (MerkleTree.mk (get_leaves testH [[0], [1], [2]]))).getD [])
          ((resize_leaves (get_leaves testH [[0], [1], [2]])).getD 2 []) 3 = true) := by
  decide

/-- Claim C7: the root of a single-leaf tree equals the digest of that
one leaf exactly: no padding occurs and the folding loop never runs. -/
theorem claim_C7 (H : List Nat → Digest) (x : List Nat) :
    build_from H [x] = Except.ok (MerkleTree.mk [calculate_hash H x])
    ∧ resize_leaves [calculate_hash H x] = [calculate_hash H x]
    ∧ calculate_root H [calculate_hash H x] = some (calculate_hash H x)
    ∧ MerkleTree.get_root H (MerkleTree.mk [calculate_hash H x]) =
        some (calculate_hash H x) := by
  have h2 : resize_leaves [calculate_hash H x] = [calculate_hash H x] := by
    rw [resize_leaves_spec _ (by simp)]
    simp [Nat.clog_one_right]
  refine ⟨rfl, h2, rfl, ?_⟩
  show calculate_root H (resize_leaves [calculate_hash H x]) =
    some (calculate_hash H x)
  rw [h2]
  exact rfl

/-- Claim C8: on every tree reachable from a successful build_from via
add_leaves, get_root produces a digest and contains_leaf produces an
answer (no internal panic: every unwrap and index stays in bounds), and
verify is total on arbitrary inputs. -/
theorem claim_C8 (H : List Nat → Digest) (a : List (List Nat))
    (adds : List (List (List Nat))) (t0 t : MerkleTree)
    (hb : build_from H a = Except.ok t0) (ht : t = applyAdds H t0 adds) :
    (∃ r, MerkleTree.get_root H t = some r)
    ∧ (∀ d, (MerkleTree.contains_leaf H t d).1 = none
        ∨ ∃ p k, (MerkleTree.contains_leaf H t d).1 = some (some p, k))
    ∧ (∀ proof root leaf i,
        verify H proof root leaf i = true ∨ verify H proof root leaf i = false) := by
  subst ht
  have hne := applyAdds_ne_nil hb adds
  refine ⟨?_, ?_, ?_⟩
  · have h0 : 0 < (resize_leaves (applyAdds H t0 adds).leaves).length := by
      rw [resize_leaves_length _ hne]
      exact Nat.pos_pow_of_pos _ (by norm_num)
    obtain ⟨proof, r, _, _, hroot, _⟩ :=
      generate_verify H (applyAdds H t0 adds).leaves hne 0 h0
    exact ⟨r, hroot⟩
  · intro d
    cases hfind : (applyAdds H t0 adds).leaves.findIdx? (fun x => x == d) with
    | none =>
      left
      simp [MerkleTree.contains_leaf, hfind]
    | some k =>
      right
      have hk : k < (applyAdds H t0 adds).leaves.length :=
        findIdx?_some_lt _ _ k hfind
      have hk' : k < (resize_leaves (applyAdds H t0 adds).leaves).length :=
        lt_of_lt_of_le hk (length_le_resize _ hne)
      obtain ⟨proof, r, hg, _, _, _⟩ :=
        generate_verify H (applyAdds H t0 adds).leaves hne k hk'
      exact ⟨proof, k, by simp [MerkleTree.contains_leaf, hfind, hg]⟩
  · intro proof root leaf i
    cases verify H proof root leaf i
    · right
      rfl
    · left
      rfl

theorem claim_C8_witness :
    ∃ r, MerkleTree.get_root testH (MerkleTree.mk [[0, 1]]) = some r :=
  (claim_C8 testH [[1]] [] (MerkleTree.mk [[0, 1]]) (MerkleTree.mk [[0, 1]])
    rfl rfl).1

/-- Claim C9: trees reachable from a successful build_from always carry
a non-empty leaf store, and the store grows append-only: add_leaves
extends it on the right and contains_leaf leaves it untouched. -/
theorem claim_C9 (H : List Nat → Digest) (a : List (List Nat))
    (adds : List (List (List Nat))) (t0 t : MerkleTree)
    (hb : build_from H a = Except.ok t0) (ht : t = applyAdds H t0 adds) :
    t.leaves ≠ []
    ∧ (∃ s, t.leaves = t0.leaves ++ s)
    ∧ (∀ (u : MerkleTree) (b : List (List Nat)),
        (MerkleTree.add_leaves H u b).leaves = u.leaves ++ get_leaves H b)
    ∧ (∀ (u : MerkleTree) (d : Digest),
        ((MerkleTree.contains_leaf H u d).2).leaves = u.leaves) := by
  subst ht
  exact ⟨applyAdds_ne_nil hb adds, applyAdds_append H adds t0,
    fun u b => rfl, fun u d => rfl⟩

theorem claim_C9_witness :
    (applyAdds testH (MerkleTree.mk [[0, 1]]) [[[2]]]).leaves ≠ [] :=
  (claim_C9 testH [[1]] [[[2]]] (MerkleTree.mk [[0, 1]])
    (applyAdds testH (MerkleTree.mk [[0, 1]]) [[[2]]]) rfl rfl).1

/-- Claim C10: contains_leaf never modifies the tree: although the
source takes the receiver by mutable reference, the resulting state is
identical, so the leaf store, count_leaves and get_root are unchanged. -/
theorem claim_C10 (H : List Nat → Digest) (t : MerkleTree) (d : Digest) :
    (MerkleTree.contains_leaf H t d).2 = t
    ∧ ((MerkleTree.contains_leaf H t d).2).leaves = t.leaves
    ∧ MerkleTree.count_leaves ((MerkleTree.contains_leaf H t d).2) =
        MerkleTree.count_leaves t
    ∧ MerkleTree.get_root H ((MerkleTree.contains_leaf H t d).2) =
        MerkleTree.get_root H t :=
  ⟨rfl, rfl, rfl, rfl⟩

-- quick sanity checks on concrete inputs (kernel evaluation)
example : build_from testH [] = Except.error CreationError.Empty := rfl
example : build_from testH [[7]] = Except.ok { leaves := [[0, 7]] } := rfl
example : resize_leaves [[0, 1], [0, 2], [0, 3]] = [[0, 1], [0, 2], [0, 3], [0, 3]] := by decide
example : MerkleTree.get_root testH { leaves := [[1]] } = some [1] := by decide
example :
    MerkleTree.get_root testH { leaves := [[1], [2]] } = some [0, 1, 2] := by decide
example :
    generate_proof testH 2 (resize_leaves [[1], [2], [3]]) [] =
      some [[3], [0, 1, 2]] := by decide
example :
    verify testH [[3], [0, 1, 2]] [0, 0, 1, 2, 0, 3, 3] [3] 2 = true := by decide

end Merkle
